import Mathlib

/-!
Verification of the text-rewriting engine in `replace_chinese.py`.

The Python source is shallowly embedded below: strings become `List Char`,
the module-level regular-expression scans become executable scanners over
character lists, `random.choice(CHINESE_CHARS)` becomes an explicit stream
`rnd : Nat → Char` of drawn characters (consumed left to right, one draw per
substituted character), the `gb2312` byte-pair decoder (Python standard
library, not part of the repository) becomes an abstract parameter
`decode : Nat → Nat → Option Char` where `none` models a decoding exception,
and file I/O becomes `Except`-valued parameters.
-/

namespace ReplaceChinese

/-- EXCLUDED_CHARS from `replace_chinese.py` line 16: the fixed set of
characters that must never be substituted. -/
def EXCLUDED_CHARS : List Char := "序跋目录第章一二三四五六七八九十廿卅版权页占位".data

/-- Membership test of the regex character class `[一-鿿]`
(line 70) and of the range check `'一' <= char <= '鿿'` (line 31). -/
def isCJK (c : Char) : Bool := decide (0x4e00 ≤ c.toNat) && decide (c.toNat ≤ 0x9fff)

/-- Iteration space of `get_chinese_chars` (lines 24-25): rows and
columns each range over `0xA1 .. 0xFE`. -/
def gbRange : List Nat := List.range' 0xA1 94

/-- Row-major enumeration of the GB2312 two-byte index space, in the order
the nested `for` loops of `get_chinese_chars` visit it. -/
def bytePairs : List (Nat × Nat) :=
  (gbRange.map (fun r => gbRange.map (fun c => (r, c)))).flatten

/-- Acceptance filter of `get_chinese_chars` line 31: keep a decoded
character only if it lies in the ideograph block and is not excluded. -/
def poolKeep (ch : Char) : Bool := isCJK ch && decide (ch ∉ EXCLUDED_CHARS)

/-- get_chinese_chars (lines 19-36), with the external `gb2312` codec
abstracted as `decode` (`none` = decoding exception, which the `except`
clause turns into `continue`).  The accumulator mirrors `chars.append`. -/
def get_chinese_chars (decode : Nat → Nat → Option Char) : List Char :=
  bytePairs.foldl
    (fun chars rc =>
      match decode rc.1 rc.2 with
      | some ch => if poolKeep ch then chars ++ [ch] else chars
      | none => chars)
    []

/-- One step of the pool builder as a partial function on a byte pair:
`none` when decoding fails (skipped pair) or the filter of line 31
rejects the character, `some` when the character is kept. -/
def poolStep (decode : Nat → Nat → Option Char) (rc : Nat × Nat) : Option Char :=
  match decode rc.1 rc.2 with
  | some ch => if poolKeep ch then some ch else none
  | none => none

/-- A tiny concrete decoder used to instantiate theorems about the
abstract decoder: only the first byte pair decodes, to `丁`. -/
def decOne : Nat → Nat → Option Char :=
  fun r c => if r = 0xA1 ∧ c = 0xA1 then some '丁' else none

/-- Decimal digit character, as produced by Python `str` on a natural. -/
def digitChar : Nat → Char
  | 0 => '0' | 1 => '1' | 2 => '2' | 3 => '3' | 4 => '4'
  | 5 => '5' | 6 => '6' | 7 => '7' | 8 => '8' | _ => '9'

/-- Fuelled decimal printer; fuel `n + 1` always suffices. -/
def natCharsAux : Nat → Nat → List Char
  | 0, _ => []
  | fuel + 1, n =>
    if n < 10 then [digitChar n]
    else natCharsAux fuel (n / 10) ++ [digitChar (n % 10)]

/-- Character list of Python `str(n)` for a natural number `n`. -/
def natChars (n : Nat) : List Char := natCharsAux (n + 1) n

/-- placeholder_template.format(counter) from lines 108 and 137/139/172/197:
the private-use marker `PROTECTED<n>`. -/
def placeholderL (n : Nat) : List Char :=
  '\uE000' :: ("PROTECTED".data ++ natChars n ++ ['\uE001'])

/-- Ordered association list playing the role of the `string_to_id` dict
(insertion order preserved, as in a Python dict). -/
abbrev IdMap := List (List Char × Nat)

/-- Dictionary lookup `string_to_id[s]` / `s in string_to_id`. -/
def lookupStr (s : List Char) : IdMap → Option Nat
  | [] => none
  | (k, v) :: rest => if k = s then some v else lookupStr s rest

/-- get_string_id (lines 54-60): return the id of `s`, allocating
`next_id` for a fresh string.  Result is `(id, new map, new next_id)`. -/
def get_string_id (s : List Char) (m : IdMap) (next : Nat) : Nat × IdMap × Nat :=
  match lookupStr s m with
  | some v => (v, m, next)
  | none => (next, m ++ [(s, next)], next + 1)

/-- Comment scanner of lines 90-94: position of the first `%` whose
immediately preceding character is not a backslash.  `pb` is the flag
"previous character was a backslash" (false at position 0). -/
def commentPosAux (pb : Bool) (i : Nat) : List Char → Option Nat
  | [] => none
  | c :: cs =>
    if c = '%' && !pb then some i
    else commentPosAux (c == '\\') (i + 1) cs

/-- comment_pos of a line (lines 90-94); `none` models `comment_pos = -1`. -/
def commentPos (l : List Char) : Option Nat := commentPosAux false 0 l

/-- Whether the scanner flag "previous char was a backslash" holds after
reading `l`, starting from flag `pb`. -/
def endBS (pb : Bool) (l : List Char) : Bool := l.foldl (fun _ c => c == '\\') pb

/-- Embedding of `re.sub(r'[一-鿿]', replace_char, text)` (lines
61-67 and 209): every ideograph outside the exclusion set is replaced by
the next drawn character `rnd k`; the draw counter advances only when
`random.choice` is actually called.  Returns the text and the new counter. -/
def subChars (rnd : Nat → Char) : Nat → List Char → List Char × Nat
  | k, [] => ([], k)
  | k, c :: cs =>
    if isCJK c then
      if c ∈ EXCLUDED_CHARS then
        let r := subChars rnd k cs
        (c :: r.1, r.2)
      else
        let r := subChars rnd (k + 1) cs
        (rnd k :: r.1, r.2)
    else
      let r := subChars rnd k cs
      (c :: r.1, r.2)

/-- Python `text.replace(old, new, 1)` (line 214): replace the first
occurrence of `pat` (scanning left to right) by `repl`. -/
def replaceFirst (pat repl : List Char) : List Char → List Char
  | [] => if pat = [] then repl else []
  | c :: cs =>
    if pat.isPrefixOf (c :: cs) then repl ++ (c :: cs).drop pat.length
    else c :: replaceFirst pat repl cs

/-- Match of the one-bracket pattern `cmd\[([^\]]+)\]` anchored at the head
of `s`: the literal `cmd`, `[`, a nonempty run of non-`]` characters
(greedy, which for this class equals up-to-the-first-`]`), then `]`.
Returns the captured bracket content. -/
def matchOne (cmd s : List Char) : Option (List Char) :=
  if cmd.isPrefixOf s ∧ (s.drop cmd.length).head? = some '[' then
    let rest := s.drop (cmd.length + 1)
    let content := rest.takeWhile (fun c => c != ']')
    if content ≠ [] ∧ (rest.drop content.length).head? = some ']' then some content
    else none
  else none

/-- Match of the two-bracket pattern `cmd\[([^\]]+)\]\[([^\]]+)\]` anchored
at the head of `s`.  Returns both captured contents. -/
def matchTwo (cmd s : List Char) : Option (List Char × List Char) :=
  if cmd.isPrefixOf s ∧ (s.drop cmd.length).head? = some '[' then
    let r1 := s.drop (cmd.length + 1)
    let c1 := r1.takeWhile (fun c => c != ']')
    if c1 ≠ [] ∧ (r1.drop c1.length).head? = some ']'
        ∧ (r1.drop (c1.length + 1)).head? = some '[' then
      let r2 := r1.drop (c1.length + 2)
      let c2 := r2.takeWhile (fun c => c != ']')
      if c2 ≠ [] ∧ (r2.drop c2.length).head? = some ']' then some (c1, c2)
      else none
    else none
  else none

/-- One `re.finditer` match of the one-bracket pattern: match start,
start/end of group 1 (the bracket content), and the content itself. -/
structure M1 where
  mstart : Nat
  bstart : Nat
  bend : Nat
  content : List Char
  deriving Repr, DecidableEq

/-- One `re.finditer` match of the two-bracket pattern. -/
structure M2 where
  mstart : Nat
  b1s : Nat
  b1e : Nat
  b2s : Nat
  b2e : Nat
  c1 : List Char
  c2 : List Char
  deriving Repr, DecidableEq

/-- Fuelled `re.finditer` for the one-bracket pattern: scan left to right,
emit non-overlapping matches, resume after each match.  Each step consumes
at least one character of `s`, so fuel `s.length + 1` is always enough. -/
def finditer1F (cmd : List Char) : Nat → Nat → List Char → List M1
  | 0, _, _ => []
  | fuel + 1, i, s =>
    match matchOne cmd s with
    | some content =>
      let len := cmd.length + content.length + 2
      ⟨i, i + cmd.length + 1, i + cmd.length + 1 + content.length, content⟩ ::
        finditer1F cmd fuel (i + len) (s.drop len)
    | none =>
      match s with
      | [] => []
      | _ :: rest => finditer1F cmd fuel (i + 1) rest

/-- Fuelled `re.finditer` for the two-bracket pattern. -/
def finditer2F (cmd : List Char) : Nat → Nat → List Char → List M2
  | 0, _, _ => []
  | fuel + 1, i, s =>
    match matchTwo cmd s with
    | some (c1, c2) =>
      let b1s := i + cmd.length + 1
      let b1e := b1s + c1.length
      let b2s := b1e + 2
      let b2e := b2s + c2.length
      let len := cmd.length + c1.length + c2.length + 4
      ⟨i, b1s, b1e, b2s, b2e, c1, c2⟩ ::
        finditer2F cmd fuel (i + len) (s.drop len)
    | none =>
      match s with
      | [] => []
      | _ :: rest => finditer2F cmd fuel (i + 1) rest

/-- protected_commands (lines 76-82): the literal command texts the regex
patterns match. -/
def protected_commands : List (List Char) :=
  ["\\startbuffer".data, "\\firstfootnote".data, "\\tofirstfootnote".data,
   "\\sameasfootnote".data, "\\basefootnote".data]

/-- The special command of lines 113-181. -/
def ffCmd : List Char := "\\firstfootnote".data

/-- Mutable state of one line's protection pass: the evolving
`text_to_process`, the `protected_regions` list (placeholder, `str(id)`),
the run-local `string_to_id` map with its `next_id`, and the per-line
`placeholder_counter`. -/
structure LineState where
  text : List Char
  regions : List (List Char × List Char)
  idMap : IdMap
  nextId : Nat
  phc : Nat
  deriving Repr, DecidableEq

/-- Body of the one-bracket replacement loops (lines 160-181 and 187-206):
assign an id to the bracket content, mint a placeholder, record the region,
and splice the placeholder over the bracket content by index. -/
def applyOne (st : LineState) (m : M1) : LineState :=
  let r := get_string_id m.content st.idMap st.nextId
  let ph := placeholderL st.phc
  { text := st.text.take m.bstart ++ ph ++ st.text.drop m.bend
    regions := st.regions ++ [(ph, natChars r.1)]
    idMap := r.2.1
    nextId := r.2.2
    phc := st.phc + 1 }

/-- Body of the two-bracket replacement loop (lines 123-154): ids for both
contents (first bracket first), two placeholders, regions recorded in
bracket order, text spliced at the second bracket first and then the first
(both with offsets of the text the matches were found in). -/
def applyTwo (st : LineState) (m : M2) : LineState :=
  let r1 := get_string_id m.c1 st.idMap st.nextId
  let r2 := get_string_id m.c2 r1.2.1 r1.2.2
  let ph1 := placeholderL st.phc
  let ph2 := placeholderL (st.phc + 1)
  let t1 := st.text.take m.b2s ++ ph2 ++ st.text.drop m.b2e
  let t2 := t1.take m.b1s ++ ph1 ++ t1.drop m.b1e
  { text := t2
    regions := st.regions ++ [(ph1, natChars r1.1), (ph2, natChars r2.1)]
    idMap := r2.2.1
    nextId := r2.2.2
    phc := st.phc + 2 }

/-- Generic command branch (lines 183-206): find all one-bracket matches in
the current text and process them in reversed order. -/
def processCmd (cmd : List Char) (st : LineState) : LineState :=
  (finditer1F cmd (st.text.length + 1) 0 st.text).reverse.foldl applyOne st

/-- firstfootnote branch (lines 113-181): both match lists are computed on
the text *before* any replacement; two-bracket matches are processed in
reversed order, then one-bracket matches in reversed order, skipping those
whose match start coincides with a two-bracket match start. -/
def processFF (st : LineState) : LineState :=
  let ms2 := finditer2F ffCmd (st.text.length + 1) 0 st.text
  let ms1 := finditer1F ffCmd (st.text.length + 1) 0 st.text
  let st1 := ms2.reverse.foldl applyTwo st
  let pos2 : List Nat := ms2.map (fun m => m.mstart)
  ms1.reverse.foldl
    (fun acc m => if m.mstart ∈ pos2 then acc else applyOne acc m) st1

/-- Dispatch of the `for cmd_pattern_base in protected_commands` loop
(lines 111-113): the firstfootnote pattern gets the special branch. -/
def processCommand (st : LineState) (cmd : List Char) : LineState :=
  if cmd = ffCmd then processFF st else processCmd cmd st

/-- The whole protection pass over one line's processed part. -/
def protectAll (st : LineState) : LineState :=
  protected_commands.foldl processCommand st

/-- Run-wide mutable state threaded across lines of one call:
the `string_to_id` map, `next_id`, and the position in the random stream. -/
structure RunState where
  idMap : IdMap
  nextId : Nat
  rndIdx : Nat
  deriving Repr, DecidableEq

/-- Protection, substitution and restoration applied to the processed part
of a line (lines 104-214): protect bracket contents, substitute ideographs,
then restore each recorded region in reversed order with
`replace(placeholder, str(id), 1)`. -/
def rewriteSegment (rnd : Nat → Char) (st : RunState) (seg : List Char) :
    List Char × RunState :=
  let ls := protectAll ⟨seg, [], st.idMap, st.nextId, 0⟩
  let sub := subChars rnd st.rndIdx ls.text
  let restored := ls.regions.reverse.foldl (fun t pr => replaceFirst pr.1 pr.2 t) sub.1
  (restored, ⟨ls.idMap, ls.nextId, sub.2⟩)

/-- One iteration of the `for line in lines` loop (lines 88-217): split off
the comment suffix, rewrite the processed part, reattach the suffix. -/
def processLine (rnd : Nat → Char) (st : RunState) (line : List Char) :
    List Char × RunState :=
  let parts :=
    match commentPos line with
    | some p => (line.take p, line.drop p)
    | none => (line, [])
  let r := rewriteSegment rnd st parts.1
  (r.1 ++ parts.2, r.2)

/-- Python `text.split('\n')`. -/
def splitNl : List Char → List (List Char)
  | [] => [[]]
  | c :: cs =>
    if c = '\n' then [] :: splitNl cs
    else
      match splitNl cs with
      | [] => [[c]]
      | l :: ls => (c :: l) :: ls

/-- Python `'\n'.join(lines)`. -/
def joinNl : List (List Char) → List Char
  | [] => []
  | [l] => l
  | l :: l' :: ls => l ++ '\n' :: joinNl (l' :: ls)

/-- Result of one call of replace_chinese_in_text, with the internal
run-local state exposed for verification. -/
structure RCTResult where
  out : List Char
  idMap : IdMap
  nextId : Nat
  rndIdx : Nat
  deriving Repr, DecidableEq

/-- One iteration of the outer `for line in lines` loop: process the line
with the running state and append the result to `processed_lines`. -/
def rctStep (rnd : Nat → Char) (acc : List (List Char) × RunState)
    (line : List Char) : List (List Char) × RunState :=
  let r := processLine rnd acc.2 line
  (acc.1 ++ [r.1], r.2)

/-- replace_chinese_in_text (lines 43-219) with its final internal state:
the map and `next_id` are created fresh at every call (lines 51-52) and
threaded through the per-line loop; the rewritten lines are rejoined with
newlines. -/
def rctCore (rnd : Nat → Char) (text : List Char) : RCTResult :=
  let fin := (splitNl text).foldl (rctStep rnd) ([], ⟨[], 1, 0⟩)
  ⟨joinNl fin.1, fin.2.idMap, fin.2.nextId, fin.2.rndIdx⟩

/-- replace_chinese_in_text as the Python function returns it: just the
rewritten text. -/
def replace_chinese_in_text (rnd : Nat → Char) (text : List Char) : List Char :=
  (rctCore rnd text).out

/-- One file's I/O boundary: the outcome of reading it and the outcome
writing a given content would have.  Models the `open`/`read`/`write`
calls of lines 228-236, whose exceptions become `Except.error`. -/
structure FileIO where
  read : Except String (List Char)
  write : List Char → Except String Unit

/-- process_tex_file (lines 222-242): read, rewrite, write; any exception
in the `try` block yields `False`, a clean pass yields `True`.  (The
`print` diagnostics are console output outside the embedding.) -/
def process_tex_file (f : FileIO) (rnd : Nat → Char) : Bool :=
  match f.read with
  | .error _ => false
  | .ok content =>
    match f.write (replace_chinese_in_text rnd content) with
    | .error _ => false
    | .ok _ => true

/-- The per-file loop of main (lines 263-267): every file is processed by
process_tex_file in order, regardless of earlier results. -/
def main_run (files : List FileIO) (rnd : Nat → Char) : List Bool :=
  files.map (fun f => process_tex_file f rnd)

/-- The non-ideograph skeleton of a text: ideograph characters collapsed
to a canonical one, everything else kept. -/
def skeleton (l : List Char) : List Char :=
  l.map (fun c => if isCJK c then '一' else c)

/-- Constant draw stream used in concrete evaluations (the drawn character
is irrelevant whenever the input holds no substitutable ideograph). -/
def constRnd : Nat → Char := fun _ => '丁'

/-- Well-formedness of the run-local identifier state: ids are exactly
`1..k` in insertion order, keys (the protected strings) are pairwise
distinct, and `next_id` is `k + 1`. -/
def IdInv (m : IdMap) (next : Nat) : Prop :=
  m.map Prod.snd = List.range' 1 m.length
    ∧ (m.map Prod.fst).Nodup
    ∧ next = m.length + 1

/-- Preservation of the map invariant: the `LineState` invariant only
concerns the identifier fields. -/
def LInv (st : LineState) : Prop := IdInv st.idMap st.nextId

/-- Newline-freeness of a line-protection state: the working text, every
recorded placeholder and every recorded replacement are free of `\n`. -/
def LineNN (st : LineState) : Prop :=
  '\n' ∉ st.text ∧ ∀ pr ∈ st.regions, '\n' ∉ pr.1 ∧ '\n' ∉ pr.2

/-- A line consisting of exactly one two-bracket occurrence of the special
command: `\firstfootnote[a][b]`. -/
def ffLine (a b : List Char) : List Char :=
  ffCmd ++ '[' :: (a ++ ']' :: '[' :: (b ++ [']']))

end ReplaceChinese

namespace ReplaceChinese

/-! ### Identifier-map invariants (claim C1) -/

lemma foldl_preserve {α β : Type} (P : α → Prop) (f : α → β → α)
    (hf : ∀ a b, P a → P (f a b)) :
    ∀ (l : List β) (a : α), P a → P (l.foldl f a) := by
  intro l
  induction l with
  | nil => intro a ha; exact ha
  | cons b bs ih => intro a ha; exact ih (f a b) (hf a b ha)

lemma lookupStr_none_notMem {s : List Char} {m : IdMap}
    (h : lookupStr s m = none) : s ∉ m.map Prod.fst := by
  induction m with
  | nil => simp
  | cons kv rest ih =>
    rw [lookupStr] at h
    by_cases hk : kv.1 = s
    · rw [if_pos hk] at h; cases h
    · rw [if_neg hk] at h
      simp only [List.map_cons, List.mem_cons]
      rintro (rfl | hmem)
      · exact hk rfl
      · exact ih h hmem

lemma range'_snoc : ∀ (s n : Nat), List.range' s (n + 1) = List.range' s n ++ [s + n] := by
  intro s n
  induction n generalizing s with
  | zero => simp
  | succ n ih =>
    rw [List.range'_succ, ih (s + 1), List.range'_succ]
    simp [Nat.add_comm, Nat.add_assoc, Nat.add_left_comm]

lemma get_string_id_inv {s : List Char} {m : IdMap} {next : Nat}
    (h : IdInv m next) :
    IdInv (get_string_id s m next).2.1 (get_string_id s m next).2.2 := by
  obtain ⟨hv, hk, hn⟩ := h
  rw [get_string_id]
  cases hl : lookupStr s m with
  | some v => exact ⟨hv, hk, hn⟩
  | none =>
    subst hn
    refine ⟨?_, ?_, by simp⟩
    · rw [List.map_append, hv]
      simp only [List.map_cons, List.map_nil, List.length_append,
        List.length_cons, List.length_nil]
      rw [Nat.add_zero, range'_snoc 1 m.length, Nat.add_comm 1 m.length]
    · rw [List.map_append, List.nodup_append]
      refine ⟨hk, by simp, ?_⟩
      intro a ham hain
      simp only [List.map_cons, List.map_nil, List.mem_singleton] at hain
      subst hain
      exact lookupStr_none_notMem hl ham

lemma applyOne_inv {st : LineState} {m : M1} (h : LInv st) : LInv (applyOne st m) := by
  simpa [LInv, applyOne] using get_string_id_inv h

lemma applyTwo_inv {st : LineState} {m : M2} (h : LInv st) : LInv (applyTwo st m) := by
  simpa [LInv, applyTwo] using get_string_id_inv (get_string_id_inv h)

lemma processCmd_inv {cmd : List Char} {st : LineState} (h : LInv st) :
    LInv (processCmd cmd st) := by
  rw [processCmd]
  exact foldl_preserve LInv applyOne (fun a b ha => applyOne_inv ha) _ st h

lemma processFF_inv {st : LineState} (h : LInv st) : LInv (processFF st) := by
  simp only [processFF]
  refine foldl_preserve LInv _ (fun a b ha => ?_) _ _
    (foldl_preserve LInv applyTwo (fun a b ha => applyTwo_inv ha) _ st h)
  dsimp only
  split
  · exact ha
  · exact applyOne_inv ha

lemma processCommand_inv {st : LineState} {cmd : List Char} (h : LInv st) :
    LInv (processCommand st cmd) := by
  rw [processCommand]
  split
  · exact processFF_inv h
  · exact processCmd_inv h

lemma protectAll_inv {st : LineState} (h : LInv st) : LInv (protectAll st) := by
  rw [protectAll]
  exact foldl_preserve LInv processCommand (fun a b ha => processCommand_inv ha) _ st h

lemma rewriteSegment_inv {rnd : Nat → Char} {st : RunState} {seg : List Char}
    (h : IdInv st.idMap st.nextId) :
    IdInv (rewriteSegment rnd st seg).2.idMap (rewriteSegment rnd st seg).2.nextId := by
  simp only [rewriteSegment]
  exact @protectAll_inv ⟨seg, [], st.idMap, st.nextId, 0⟩ h

lemma processLine_inv {rnd : Nat → Char} {st : RunState} {line : List Char}
    (h : IdInv st.idMap st.nextId) :
    IdInv (processLine rnd st line).2.idMap (processLine rnd st line).2.nextId := by
  simp only [processLine]
  exact rewriteSegment_inv h

lemma rctCore_inv (rnd : Nat → Char) (text : List Char) :
    IdInv (rctCore rnd text).idMap (rctCore rnd text).nextId := by
  have h := foldl_preserve
    (fun acc : List (List Char) × RunState => IdInv acc.2.idMap acc.2.nextId)
    (rctStep rnd)
    (fun a b ha => by simpa only [rctStep] using processLine_inv ha)
    (splitNl text) ([], ⟨[], 1, 0⟩) ⟨by simp, List.nodup_nil, rfl⟩
  simpa only [rctCore] using h

/-- Claim C1 (amended): within a single call of `replace_chinese_in_text`
(one file), the identifier map is well formed: the identifiers are exactly
`1, 2, ..., k` in the order the protection loops first process each
distinct protected string (which is rightmost-first inside a line), the
protected strings in the map are pairwise distinct (so two different
strings never share an identifier inside one call), and `next_id` is
always one past the number of assigned identifiers. -/
theorem c1_per_call_id_assignment (rnd : Nat → Char) (text : List Char) :
    (rctCore rnd text).idMap.map Prod.snd
        = List.range' 1 (rctCore rnd text).idMap.length
      ∧ ((rctCore rnd text).idMap.map Prod.fst).Nodup
      ∧ (rctCore rnd text).nextId = (rctCore rnd text).idMap.length + 1 :=
  rctCore_inv rnd text

/-- Claim C1 counterexample: the `string_to_id` map is local to one call of
`replace_chinese_in_text`, so in a run over two files the distinct strings
`aaa` and `bbb` both receive identifier 1; and within one file two matches
on the same line are processed rightmost-first, so the string appearing
first in the source (`a`) receives identifier 2 while the later `b`
receives 1 — both parts contradict the claim's run-wide, first-appearance
identifier discipline. -/
theorem c1_counterexample :
    ((rctCore constRnd "\\basefootnote[aaa]".data).idMap = [("aaa".data, 1)]
        ∧ (rctCore constRnd "\\basefootnote[bbb]".data).idMap = [("bbb".data, 1)]
        ∧ "aaa".data ≠ "bbb".data
        ∧ replace_chinese_in_text constRnd "\\basefootnote[aaa]".data
            = "\\basefootnote[1]".data
        ∧ replace_chinese_in_text constRnd "\\basefootnote[bbb]".data
            = "\\basefootnote[1]".data)
      ∧ (rctCore constRnd "\\firstfootnote[a] \\firstfootnote[b]".data).idMap
          = [("b".data, 1), ("a".data, 2)] := by
  decide

/-! ### Substitution postcondition (claim C3) -/

lemma subChars_cons_excl {rnd : Nat → Char} {k : Nat} {c : Char} {cs : List Char}
    (h1 : isCJK c = true) (h2 : c ∈ EXCLUDED_CHARS) :
    subChars rnd k (c :: cs)
      = (c :: (subChars rnd k cs).1, (subChars rnd k cs).2) := by
  simp [subChars, h1, h2]

lemma subChars_cons_subst {rnd : Nat → Char} {k : Nat} {c : Char} {cs : List Char}
    (h1 : isCJK c = true) (h2 : c ∉ EXCLUDED_CHARS) :
    subChars rnd k (c :: cs)
      = (rnd k :: (subChars rnd (k + 1) cs).1, (subChars rnd (k + 1) cs).2) := by
  simp [subChars, h1, h2]

lemma subChars_cons_other {rnd : Nat → Char} {k : Nat} {c : Char} {cs : List Char}
    (h1 : isCJK c = false) :
    subChars rnd k (c :: cs)
      = (c :: (subChars rnd k cs).1, (subChars rnd k cs).2) := by
  simp [subChars, h1]

lemma subChars_length (rnd : Nat → Char) :
    ∀ (k : Nat) (l : List Char), (subChars rnd k l).1.length = l.length := by
  intro k l
  induction l generalizing k with
  | nil => rfl
  | cons c cs ih =>
    by_cases h1 : isCJK c = true
    · by_cases h2 : c ∈ EXCLUDED_CHARS
      · rw [subChars_cons_excl h1 h2]; simp [ih]
      · rw [subChars_cons_subst h1 h2]; simp [ih]
    · rw [subChars_cons_other (Bool.not_eq_true _ ▸ h1)]; simp [ih]

/-- Claim C3: for every character of the substituted region, an excluded
ideograph passes through unchanged, a non-excluded ideograph becomes some
member of the pool the draws come from, and every non-ideograph character
(placeholder characters included, they are outside the ideograph range)
passes through unchanged.  The pool hypothesis is the contract of
`random.choice(CHINESE_CHARS)`. -/
theorem c3_substitution_postcondition (rnd : Nat → Char) (pool : List Char)
    (hp : ∀ n, rnd n ∈ pool) (k : Nat) (l : List Char) (i : Nat)
    (hi : i < l.length) :
    (subChars rnd k l).1.length = l.length
      ∧ (isCJK (l.getD i ' ') = true → l.getD i ' ' ∈ EXCLUDED_CHARS →
          (subChars rnd k l).1.getD i ' ' = l.getD i ' ')
      ∧ (isCJK (l.getD i ' ') = true → l.getD i ' ' ∉ EXCLUDED_CHARS →
          (subChars rnd k l).1.getD i ' ' ∈ pool)
      ∧ (isCJK (l.getD i ' ') = false →
          (subChars rnd k l).1.getD i ' ' = l.getD i ' ') := by
  refine ⟨subChars_length rnd k l, ?_⟩
  induction l generalizing k i with
  | nil => cases hi
  | cons c cs ih =>
    by_cases h1 : isCJK c = true
    · by_cases h2 : c ∈ EXCLUDED_CHARS
      · rw [subChars_cons_excl h1 h2]
        cases i with
        | zero => simp [h1, h2]
        | succ j =>
          simp only [List.getD_cons_succ]
          exact ih k j (by simpa using hi)
      · rw [subChars_cons_subst h1 h2]
        cases i with
        | zero => simp [h1, h2, hp k]
        | succ j =>
          simp only [List.getD_cons_succ]
          exact ih (k + 1) j (by simpa using hi)
    · have h1' : isCJK c = false := by simpa using h1
      rw [subChars_cons_other h1']
      cases i with
      | zero => simp [h1']
      | succ j =>
        simp only [List.getD_cons_succ]
        exact ih k j (by simpa using hi)

/-- Witness for C3 at a concrete input: the line `第中x` at index 1 (the
non-excluded ideograph `中`), pool `[丁]`, constant draw stream. -/
theorem c3_substitution_postcondition_witness :
    (∀ n, constRnd n ∈ ['丁']) ∧ (1 < "第中x".data.length
      ∧ ((subChars constRnd 0 "第中x".data).1.length = "第中x".data.length
        ∧ (isCJK ("第中x".data.getD 1 ' ') = true →
            "第中x".data.getD 1 ' ' ∈ EXCLUDED_CHARS →
            (subChars constRnd 0 "第中x".data).1.getD 1 ' '
              = "第中x".data.getD 1 ' ')
        ∧ (isCJK ("第中x".data.getD 1 ' ') = true →
            "第中x".data.getD 1 ' ' ∉ EXCLUDED_CHARS →
            (subChars constRnd 0 "第中x".data).1.getD 1 ' ' ∈ ['丁'])
        ∧ (isCJK ("第中x".data.getD 1 ' ') = false →
            (subChars constRnd 0 "第中x".data).1.getD 1 ' '
              = "第中x".data.getD 1 ' '))) :=
  ⟨fun n => by simp [constRnd], by decide,
    c3_substitution_postcondition constRnd ['丁'] (fun n => by simp [constRnd]) 0
      "第中x".data 1 (by decide)⟩

/-! ### Comment-scanner lemmas (claims C10 and C4) -/

lemma commentPosAux_ge : ∀ (l : List Char) (pb : Bool) (i r : Nat),
    commentPosAux pb i l = some r → i ≤ r := by
  intro l
  induction l with
  | nil => intro pb i r h; cases h
  | cons c cs ih =>
    intro pb i r h
    rw [commentPosAux] at h
    split at h
    · cases h; exact Nat.le_refl _
    · exact Nat.le_trans (Nat.le_succ i) (ih _ _ _ h)

lemma commentPosAux_pred : ∀ (l : List Char) (pb : Bool) (i r : Nat),
    commentPosAux pb i l = some r →
    (r = i → pb = false) ∧
      (i < r → r - i - 1 < l.length ∧ l.getD (r - i - 1) ' ' ≠ '\\') := by
  intro l
  induction l with
  | nil => intro pb i r h; cases h
  | cons c cs ih =>
    intro pb i r h
    rw [commentPosAux] at h
    split at h
    · rename_i hcond
      cases h
      refine ⟨fun _ => ?_, fun hlt => absurd hlt (Nat.lt_irrefl _)⟩
      have := (Bool.and_eq_true _ _).mp hcond
      simpa using this.2
    · have hge := commentPosAux_ge cs (c == '\\') (i + 1) r h
      have IH := ih (c == '\\') (i + 1) r h
      constructor
      · intro hri; omega
      · intro _
        rcases Nat.eq_or_lt_of_le hge with heq | hlt
        · have hc : (c == '\\') = false := IH.1 heq.symm
          have : r - i - 1 = 0 := by omega
          rw [this]
          simp only [List.getD_cons_zero, List.length_cons]
          exact ⟨Nat.succ_pos _, by simpa using hc⟩
        · have h2 := IH.2 hlt
          have hidx : r - i - 1 = (r - (i + 1) - 1) + 1 := by omega
          rw [hidx]
          simp only [List.getD_cons_succ, List.length_cons]
          exact ⟨by omega, h2.2⟩

lemma commentPosAux_append : ∀ (A : List Char) (pb : Bool) (i : Nat) (r : List Char),
    commentPosAux pb i A = none →
    commentPosAux pb i (A ++ r) = commentPosAux (endBS pb A) (i + A.length) r := by
  intro A
  induction A with
  | nil => intro pb i r _; simp [endBS]
  | cons c cs ih =>
    intro pb i r h
    rw [commentPosAux] at h
    split at h
    · cases h
    · rename_i hcond
      rw [List.cons_append, commentPosAux, if_neg hcond, ih _ _ _ h]
      have he : endBS pb (c :: cs) = endBS (c == '\\') cs := rfl
      rw [he]
      congr 1
      simp [Nat.add_comm, Nat.add_assoc, Nat.add_left_comm]

lemma commentPos_split {A B : List Char} (hA : commentPos A = none)
    (hbs : endBS false A = false) :
    commentPos (A ++ '%' :: B) = some A.length := by
  rw [commentPos, commentPosAux_append A false 0 _ hA, hbs, commentPosAux]
  simp

/-- Claim C10: the comment scan consults only the single character
immediately before a `%`: whenever it reports a comment at position `i`,
either `i = 0` or the preceding character is not a backslash; dually, in
the concrete line `x\\%中y` the `%` is preceded by a backslash (itself
preceded by another backslash), so no comment is detected and the
ideograph after the `%` is still substituted. -/
theorem c10_escape_check :
    (∀ (l : List Char) (i : Nat), commentPos l = some i →
        i = 0 ∨ l.getD (i - 1) ' ' ≠ '\\')
      ∧ commentPos "x\\\\%中y".data = none
      ∧ processLine constRnd ⟨[], 1, 0⟩ "x\\\\%中y".data
          = ("x\\\\%丁y".data, ⟨[], 1, 1⟩) := by
  refine ⟨?_, by decide, by decide⟩
  intro l i h
  rcases Nat.eq_zero_or_pos i with hz | hpos
  · exact Or.inl hz
  · right
    have hp := (commentPosAux_pred l false 0 i h).2 hpos
    simpa using hp.2

/-- Witness for C10's universally quantified part, at the concrete line
`ab%c` whose comment starts at position 2. -/
theorem c10_escape_check_witness :
    commentPos "ab%c".data = some 2
      ∧ (2 = 0 ∨ "ab%c".data.getD (2 - 1) ' ' ≠ '\\') :=
  ⟨by decide, c10_escape_check.1 "ab%c".data 2 (by decide)⟩

/-- Claim C4: a line `A ++ % ++ B` whose prefix `A` holds no unescaped `%`
and does not end in a backslash is rewritten as (rewritten `A`) followed by
the untouched comment suffix `% ++ B`; protection, substitution and
restoration only ever see `A`. -/
theorem c4_comment_preserved (rnd : Nat → Char) (st : RunState) (A B : List Char)
    (hA : commentPos A = none) (hbs : endBS false A = false) :
    processLine rnd st (A ++ '%' :: B)
      = ((rewriteSegment rnd st A).1 ++ '%' :: B, (rewriteSegment rnd st A).2) := by
  simp only [processLine]
  rw [commentPos_split hA hbs]
  simp only [List.take_left, List.drop_left]

/-- Witness for C4: prefix `a\%b中` (with an escaped `%`), suffix `tail中`;
the comment suffix, including a protected-looking command after `%`, is
preserved verbatim. -/
theorem c4_comment_preserved_witness :
    (commentPos "a\\%b中".data = none ∧ endBS false "a\\%b中".data = false)
      ∧ processLine constRnd ⟨[], 1, 0⟩ ("a\\%b中".data ++ '%' :: "中\\basefootnote[x]".data)
          = ((rewriteSegment constRnd ⟨[], 1, 0⟩ "a\\%b中".data).1
              ++ '%' :: "中\\basefootnote[x]".data,
             (rewriteSegment constRnd ⟨[], 1, 0⟩ "a\\%b中".data).2) :=
  ⟨⟨by decide, by decide⟩,
    c4_comment_preserved constRnd ⟨[], 1, 0⟩ "a\\%b中".data
      "中\\basefootnote[x]".data (by decide) (by decide)⟩

/-! ### Newline preservation (claim C9) -/

lemma digitChar_bounds (d : Nat) :
    48 ≤ (digitChar d).toNat ∧ (digitChar d).toNat ≤ 57 := by
  rcases d with _ | _ | _ | _ | _ | _ | _ | _ | _ | n
  case succ.succ.succ.succ.succ.succ.succ.succ.succ =>
    exact (by decide : 48 ≤ ('9' : Char).toNat ∧ ('9' : Char).toNat ≤ 57)
  all_goals decide

lemma natCharsAux_digit : ∀ (fuel n : Nat) (c : Char), c ∈ natCharsAux fuel n →
    48 ≤ c.toNat ∧ c.toNat ≤ 57 := by
  intro fuel
  induction fuel with
  | zero => intro n c h; cases h
  | succ f ih =>
    intro n c h
    rw [natCharsAux] at h
    split at h
    · rcases List.mem_singleton.mp h with rfl
      exact digitChar_bounds n
    · rcases List.mem_append.mp h with h1 | h2
      · exact ih _ _ h1
      · rcases List.mem_singleton.mp h2 with rfl
        exact digitChar_bounds _

lemma natChars_digit {n : Nat} {c : Char} (h : c ∈ natChars n) :
    48 ≤ c.toNat ∧ c.toNat ≤ 57 :=
  natCharsAux_digit _ _ _ h

lemma natChars_no_nl (n : Nat) : '\n' ∉ natChars n := by
  intro h
  have := natChars_digit h
  have hv : ('\n').toNat = 10 := by decide
  omega

lemma placeholderL_no_nl (n : Nat) : '\n' ∉ placeholderL n := by
  intro h
  rw [placeholderL] at h
  rcases List.mem_cons.mp h with h | h
  · exact absurd h (by decide)
  · rcases List.mem_append.mp h with h | h
    · rcases List.mem_append.mp h with h | h
      · exact absurd h (by decide)
      · exact natChars_no_nl n h
    · exact absurd h (by decide)

lemma splice_no_nl {t ph : List Char} {a b : Nat}
    (ht : '\n' ∉ t) (hph : '\n' ∉ ph) :
    '\n' ∉ t.take a ++ ph ++ t.drop b := by
  intro h
  rcases List.mem_append.mp h with h | h
  · rcases List.mem_append.mp h with h | h
    · exact ht (List.take_subset a t h)
    · exact hph h
  · exact ht (List.drop_subset b t h)

lemma applyOne_nn {st : LineState} {m : M1} (h : LineNN st) :
    LineNN (applyOne st m) := by
  obtain ⟨ht, hr⟩ := h
  refine ⟨splice_no_nl ht (placeholderL_no_nl _), ?_⟩
  intro pr hpr
  rcases List.mem_append.mp hpr with h1 | h2
  · exact hr pr h1
  · rcases List.mem_singleton.mp h2 with rfl
    exact ⟨placeholderL_no_nl _, natChars_no_nl _⟩

lemma applyTwo_nn {st : LineState} {m : M2} (h : LineNN st) :
    LineNN (applyTwo st m) := by
  obtain ⟨ht, hr⟩ := h
  refine ⟨splice_no_nl (splice_no_nl ht (placeholderL_no_nl _)) (placeholderL_no_nl _), ?_⟩
  intro pr hpr
  rcases List.mem_append.mp hpr with h1 | h2
  · exact hr pr h1
  · rcases List.mem_cons.mp h2 with rfl | h3
    · exact ⟨placeholderL_no_nl _, natChars_no_nl _⟩
    · rcases List.mem_singleton.mp h3 with rfl
      exact ⟨placeholderL_no_nl _, natChars_no_nl _⟩

lemma processCmd_nn {cmd : List Char} {st : LineState} (h : LineNN st) :
    LineNN (processCmd cmd st) := by
  rw [processCmd]
  exact foldl_preserve LineNN applyOne (fun a b ha => applyOne_nn ha) _ st h

lemma processFF_nn {st : LineState} (h : LineNN st) : LineNN (processFF st) := by
  simp only [processFF]
  refine foldl_preserve LineNN _ (fun a b ha => ?_) _ _
    (foldl_preserve LineNN applyTwo (fun a b ha => applyTwo_nn ha) _ st h)
  dsimp only
  split
  · exact ha
  · exact applyOne_nn ha

lemma processCommand_nn {st : LineState} {cmd : List Char} (h : LineNN st) :
    LineNN (processCommand st cmd) := by
  rw [processCommand]
  split
  · exact processFF_nn h
  · exact processCmd_nn h

lemma protectAll_nn {st : LineState} (h : LineNN st) : LineNN (protectAll st) := by
  rw [protectAll]
  exact foldl_preserve LineNN processCommand (fun a b ha => processCommand_nn ha) _ st h

lemma subChars_no_nl {rnd : Nat → Char} (hr : ∀ n, rnd n ≠ '\n') :
    ∀ (k : Nat) (l : List Char), '\n' ∉ l → '\n' ∉ (subChars rnd k l).1 := by
  intro k l
  induction l generalizing k with
  | nil => intro _ h; cases h
  | cons c cs ih =>
    intro hl
    have hc : c ≠ '\n' := fun hh => hl (hh ▸ List.mem_cons_self c cs)
    have hcs : '\n' ∉ cs := fun hh => hl (List.mem_cons_of_mem c hh)
    by_cases h1 : isCJK c = true
    · by_cases h2 : c ∈ EXCLUDED_CHARS
      · rw [subChars_cons_excl h1 h2]
        intro hmem
        rcases List.mem_cons.mp hmem with h | h
        · exact hc h.symm
        · exact ih k hcs h
      · rw [subChars_cons_subst h1 h2]
        intro hmem
        rcases List.mem_cons.mp hmem with h | h
        · exact hr k h.symm
        · exact ih (k + 1) hcs h
    · rw [subChars_cons_other (by simpa using h1)]
      intro hmem
      rcases List.mem_cons.mp hmem with h | h
      · exact hc h.symm
      · exact ih k hcs h

lemma replaceFirst_no_nl {pat repl : List Char} (hrep : '\n' ∉ repl) :
    ∀ l : List Char, '\n' ∉ l → '\n' ∉ replaceFirst pat repl l := by
  intro l
  induction l with
  | nil =>
    intro _ h
    rw [replaceFirst] at h
    split at h
    · exact hrep h
    · cases h
  | cons c cs ih =>
    intro hl h
    have hc : c ≠ '\n' := fun hh => hl (hh ▸ List.mem_cons_self c cs)
    have hcs : '\n' ∉ cs := fun hh => hl (List.mem_cons_of_mem c hh)
    rw [replaceFirst] at h
    split at h
    · rcases List.mem_append.mp h with h | h
      · exact hrep h
      · exact hl (List.drop_subset _ _ h)
    · rcases List.mem_cons.mp h with h | h
      · exact hc h.symm
      · exact ih hcs h

lemma restore_no_nl : ∀ (rs : List (List Char × List Char)) (t : List Char),
    '\n' ∉ t → (∀ pr ∈ rs, '\n' ∉ pr.2) →
    '\n' ∉ rs.foldl (fun t pr => replaceFirst pr.1 pr.2 t) t := by
  intro rs
  induction rs with
  | nil => intro t ht _; exact ht
  | cons pr rest ih =>
    intro t ht hall
    exact ih _ (replaceFirst_no_nl (hall pr (List.mem_cons_self _ _)) t ht)
      (fun q hq => hall q (List.mem_cons_of_mem _ hq))

lemma rewriteSegment_no_nl {rnd : Nat → Char} (hr : ∀ n, rnd n ≠ '\n')
    {st : RunState} {seg : List Char} (hseg : '\n' ∉ seg) :
    '\n' ∉ (rewriteSegment rnd st seg).1 := by
  simp only [rewriteSegment]
  have hp : LineNN (protectAll ⟨seg, [], st.idMap, st.nextId, 0⟩) :=
    protectAll_nn ⟨hseg, by intro pr hpr; cases hpr⟩
  refine restore_no_nl _ _ (subChars_no_nl hr _ _ hp.1) ?_
  intro pr hpr
  exact (hp.2 pr (List.mem_reverse.mp hpr)).2

lemma processLine_no_nl {rnd : Nat → Char} (hr : ∀ n, rnd n ≠ '\n')
    {st : RunState} {line : List Char} (hline : '\n' ∉ line) :
    '\n' ∉ (processLine rnd st line).1 := by
  simp only [processLine]
  cases hcp : commentPos line with
  | some p =>
    simp only [hcp]
    intro h
    rcases List.mem_append.mp h with h | h
    · exact rewriteSegment_no_nl hr
        (fun hh => hline (List.take_subset p line hh)) h
    · exact hline (List.drop_subset p line h)
  | none =>
    simp only [hcp]
    intro h
    rcases List.mem_append.mp h with h | h
    · exact rewriteSegment_no_nl hr hline h
    · cases h

lemma splitNl_ne_nil : ∀ t : List Char, splitNl t ≠ [] := by
  intro t
  cases t with
  | nil => simp [splitNl]
  | cons c cs =>
    rw [splitNl]
    split
    · simp
    · split <;> simp

lemma splitNl_no_nl : ∀ (t : List Char) (l : List Char), l ∈ splitNl t → '\n' ∉ l := by
  intro t
  induction t with
  | nil =>
    intro l h
    rcases List.mem_singleton.mp h with rfl
    intro h; cases h
  | cons c cs ih =>
    intro l h
    rw [splitNl] at h
    by_cases hc : c = '\n'
    · rw [if_pos hc] at h
      rcases List.mem_cons.mp h with rfl | h
      · intro h; cases h
      · exact ih l h
    · rw [if_neg hc] at h
      cases hsp : splitNl cs with
      | nil => exact absurd hsp (splitNl_ne_nil cs)
      | cons l0 ls =>
        rw [hsp] at h
        rcases List.mem_cons.mp h with rfl | h
        · intro hmem
          rcases List.mem_cons.mp hmem with h | h
          · exact hc h.symm
          · exact ih l0 (hsp ▸ List.mem_cons_self l0 ls) h
        · exact ih l (hsp ▸ List.mem_cons_of_mem l0 h)

lemma splitNl_length : ∀ t : List Char, (splitNl t).length = t.count '\n' + 1 := by
  intro t
  induction t with
  | nil => simp [splitNl]
  | cons c cs ih =>
    rw [splitNl]
    by_cases hc : c = '\n'
    · rw [if_pos hc]
      simp [List.count_cons, hc, ih]
    · rw [if_neg hc]
      cases hsp : splitNl cs with
      | nil => exact absurd hsp (splitNl_ne_nil cs)
      | cons l0 ls =>
        rw [hsp] at ih
        simp only [List.length_cons] at ih ⊢
        simp [List.count_cons, hc, ih]

lemma joinNl_count : ∀ ls : List (List Char), (∀ l ∈ ls, '\n' ∉ l) →
    (joinNl ls).count '\n' = ls.length - 1 := by
  intro ls
  induction ls with
  | nil => intro _; simp [joinNl]
  | cons l rest ih =>
    intro hall
    cases rest with
    | nil =>
      rw [joinNl]
      simp [List.count_eq_zero.mpr (hall l (List.mem_singleton.mpr rfl))]
    | cons l' rest' =>
      rw [joinNl]
      have h0 : l.count '\n' = 0 :=
        List.count_eq_zero.mpr (hall l (List.mem_cons_self _ _))
      have hrest := ih (fun q hq => hall q (List.mem_cons_of_mem _ hq))
      rw [List.count_append, h0, List.count_cons_self]
      simp only [List.length_cons] at hrest ⊢
      omega

lemma rctFold_nn {rnd : Nat → Char} (hr : ∀ n, rnd n ≠ '\n') :
    ∀ (lines : List (List Char)) (acc : List (List Char) × RunState),
    (∀ l ∈ lines, '\n' ∉ l) → (∀ o ∈ acc.1, '\n' ∉ o) →
    (∀ o ∈ (lines.foldl (rctStep rnd) acc).1, '\n' ∉ o)
      ∧ (lines.foldl (rctStep rnd) acc).1.length = acc.1.length + lines.length := by
  intro lines
  induction lines with
  | nil => intro acc _ hacc; exact ⟨hacc, rfl⟩
  | cons l rest ih =>
    intro acc hall hacc
    have hstep : ∀ o ∈ (rctStep rnd acc l).1, '\n' ∉ o := by
      intro o ho
      simp only [rctStep] at ho
      rcases List.mem_append.mp ho with h | h
      · exact hacc o h
      · rw [List.mem_singleton.mp h]
        exact processLine_no_nl hr (hall l (List.mem_cons_self _ _))
    have hlen : (rctStep rnd acc l).1.length = acc.1.length + 1 := by
      simp [rctStep]
    have := ih (rctStep rnd acc l) (fun q hq => hall q (List.mem_cons_of_mem _ hq)) hstep
    refine ⟨this.1, ?_⟩
    rw [List.foldl_cons, this.2, hlen]
    simp only [List.length_cons]
    omega

/-- Claim C9: the rewriter splits on newline, rewrites each line to one
newline-free line (every inserted character — placeholder, decimal id,
drawn pool character — is not a newline), and rejoins with newline, so the
output has exactly the input's newline count and line count.  The
hypothesis is the contract that a drawn substitute is never a newline
(pool members are ideographs). -/
theorem c9_line_count_preserved (rnd : Nat → Char) (hr : ∀ n, rnd n ≠ '\n')
    (text : List Char) :
    (replace_chinese_in_text rnd text).count '\n' = text.count '\n'
      ∧ (splitNl (replace_chinese_in_text rnd text)).length = (splitNl text).length := by
  have hf := rctFold_nn hr (splitNl text) ([], ⟨[], 1, 0⟩)
    (fun l hl => splitNl_no_nl text l hl) (by intro o ho; cases ho)
  have hout : replace_chinese_in_text rnd text
      = joinNl ((splitNl text).foldl (rctStep rnd) ([], ⟨[], 1, 0⟩)).1 := rfl
  have hcount : (replace_chinese_in_text rnd text).count '\n' = text.count '\n' := by
    rw [hout, joinNl_count _ hf.1, hf.2]
    simp only [List.length_nil, Nat.zero_add, splitNl_length]
    omega
  refine ⟨hcount, ?_⟩
  rw [splitNl_length, splitNl_length, hcount]

/-- Witness for C9: the constant draw stream never yields a newline; a
concrete three-line text keeps its newline and line counts. -/
theorem c9_line_count_preserved_witness :
    ((replace_chinese_in_text constRnd "中%文\n\\basefootnote[名]\n尾".data).count '\n'
        = "中%文\n\\basefootnote[名]\n尾".data.count '\n')
      ∧ (splitNl (replace_chinese_in_text constRnd "中%文\n\\basefootnote[名]\n尾".data)).length
        = (splitNl "中%文\n\\basefootnote[名]\n尾".data).length :=
  c9_line_count_preserved constRnd (fun n => by simp [constRnd])
    "中%文\n\\basefootnote[名]\n尾".data

/-! ### Character-pool builder (claim C6) -/

lemma gcc_foldl_filterMap (decode : Nat → Nat → Option Char) :
    ∀ (l : List (Nat × Nat)) (acc : List Char),
    l.foldl
      (fun chars rc =>
        match decode rc.1 rc.2 with
        | some ch => if poolKeep ch then chars ++ [ch] else chars
        | none => chars)
      acc
      = acc ++ l.filterMap (poolStep decode) := by
  intro l
  induction l with
  | nil => intro acc; simp
  | cons rc rest ih =>
    intro acc
    rw [List.foldl_cons, List.filterMap_cons]
    cases hd : decode rc.1 rc.2 with
    | none => simp only [hd, poolStep, ih]
    | some ch =>
      by_cases hk : poolKeep ch = true
      · simp only [hd, poolStep, hk, if_true, ih, List.append_assoc,
          List.singleton_append]
      · simp only [hd, poolStep, hk, if_false, ih, Bool.false_eq_true]

lemma gcc_eq_filterMap (decode : Nat → Nat → Option Char) :
    get_chinese_chars decode = bytePairs.filterMap (poolStep decode) := by
  rw [get_chinese_chars, gcc_foldl_filterMap decode bytePairs []]
  rfl

lemma poolStep_some {decode : Nat → Nat → Option Char} {rc : Nat × Nat} {c : Char}
    (h : poolStep decode rc = some c) : poolKeep c = true := by
  cases hd : decode rc.1 rc.2 with
  | none => rw [poolStep, hd] at h; cases h
  | some ch =>
    rw [poolStep, hd] at h
    dsimp only at h
    by_cases hk : poolKeep ch = true
    · rw [if_pos hk] at h
      cases h
      exact hk
    · rw [if_neg hk] at h; cases h

/-- Claim C6: whatever the (external) decoder does, every character the
pool builder returns lies in the ideograph block `U+4E00..U+9FFF` and is
not excluded; pairs whose decoding fails contribute nothing (no error is
raised — failure is an `Option`, not an exception escaping the builder);
and the result is exactly the deterministic filter-map of the row-major
byte-pair enumeration, so its order follows the encoding iteration
order. -/
theorem c6_pool_members (decode : Nat → Nat → Option Char) :
    (∀ c ∈ get_chinese_chars decode,
        (0x4e00 ≤ c.toNat ∧ c.toNat ≤ 0x9fff) ∧ c ∉ EXCLUDED_CHARS)
      ∧ get_chinese_chars decode = bytePairs.filterMap (poolStep decode) := by
  refine ⟨?_, gcc_eq_filterMap decode⟩
  intro c hc
  rw [gcc_eq_filterMap decode] at hc
  obtain ⟨rc, _, hstep⟩ := List.mem_filterMap.mp hc
  have hk := poolStep_some hstep
  rw [poolKeep, Bool.and_eq_true, isCJK, Bool.and_eq_true] at hk
  exact ⟨⟨of_decide_eq_true hk.1.1, of_decide_eq_true hk.1.2⟩,
    of_decide_eq_true hk.2⟩

/-- Witness for C6: with the one-pair decoder, `丁` is in the pool, and the
theorem yields its range and exclusion facts. -/
theorem c6_pool_members_witness :
    '丁' ∈ get_chinese_chars decOne
      ∧ ((0x4e00 ≤ ('丁').toNat ∧ ('丁').toNat ≤ 0x9fff) ∧ '丁' ∉ EXCLUDED_CHARS) := by
  have hmem : '丁' ∈ get_chinese_chars decOne := by
    rw [gcc_eq_filterMap]
    exact List.mem_filterMap.mpr ⟨(0xA1, 0xA1), by decide, by decide⟩
  exact ⟨hmem, (c6_pool_members decOne).1 '丁' hmem⟩

/-! ### Per-file error containment (claim C8) -/

/-- Claim C8: a file's processing returns `True` exactly when both its read
and the write of the rewritten content succeed (any exception among them
yields `False`), and the driver loop processes every file regardless of
earlier failures: the result list always has one boolean per file, and the
head file's outcome composes with the untouched processing of the rest. -/
theorem c8_error_containment (rnd : Nat → Char) :
    (∀ f : FileIO, process_tex_file f rnd = true ↔
        ∃ t, f.read = Except.ok t
          ∧ f.write (replace_chinese_in_text rnd t) = Except.ok ())
      ∧ (∀ files : List FileIO, (main_run files rnd).length = files.length)
      ∧ (∀ (f : FileIO) (files : List FileIO),
          main_run (f :: files) rnd = process_tex_file f rnd :: main_run files rnd) := by
  refine ⟨?_, ?_, ?_⟩
  · intro f
    cases hr : f.read with
    | error e => simp [process_tex_file, hr]
    | ok t =>
      cases hw : f.write (replace_chinese_in_text rnd t) with
      | error e => simp [process_tex_file, hr, hw]
      | ok u => cases u; simp [process_tex_file, hr, hw]
  · intro files
    simp [main_run]
  · intro f files
    simp [main_run]

/-! ### Stale offsets with mixed one- and two-bracket matches (claims C2 and C7) -/

/-- Claim C2 evaluation at the failing input: on the single line
`\firstfootnote[a][b]\firstfootnote[c]` the one-bracket match list is
computed before the two-bracket replacements lengthen the text, so the
placeholder for `c` (bracket offsets 35..36 of the original text) is
spliced into the middle of the placeholder that sits over `b`, destroying
it; `c` is left unprotected and a mangled placeholder fragment
`PROTE3TED1` (with private-use delimiters) survives restoration.  The
drawn stream is irrelevant: the line holds no ideograph. -/
theorem c2_stale_offset_output :
    replace_chinese_in_text constRnd "\\firstfootnote[a][b]\\firstfootnote[c]".data
      = "\\firstfootnote[1][\uE000PROTE3TED1\uE001]\\firstfootnote[c]".data := by
  decide

/-- Claim C7 evaluation at the failing input: running the rewriter a second
time on the first run's output changes the non-ideograph skeleton — the
second pass reads the leftover placeholder fragment as a protectable
bracket argument and then mangles the second command name into
`\fir3tfootnote` — so even the ideograph-collapsed skeletons of the two
outputs differ (neither output contains any ideograph at all). -/
theorem c7_skeleton_not_idempotent :
    replace_chinese_in_text constRnd
        (replace_chinese_in_text constRnd "\\firstfootnote[a][b]\\firstfootnote[c]".data)
      = "\\firstfootnote[1][2]\\fir3tfootnote[c]".data
    ∧ skeleton (replace_chinese_in_text constRnd
        (replace_chinese_in_text constRnd "\\firstfootnote[a][b]\\firstfootnote[c]".data))
      ≠ skeleton (replace_chinese_in_text constRnd
          "\\firstfootnote[a][b]\\firstfootnote[c]".data) :=
  ⟨by decide, by decide⟩

/-! ### Symbolic evaluation of the scanners (towards claim C5) -/

lemma takeWhile_notRB {a : List Char} (ha : ∀ c ∈ a, c ≠ ']') (r : List Char) :
    (a ++ ']' :: r).takeWhile (fun c => c != ']') = a := by
  induction a with
  | nil => simp
  | cons c cs ih =>
    have hc : c ≠ ']' := ha c (List.mem_cons_self _ _)
    rw [List.cons_append, List.takeWhile_cons]
    simp only [bne_iff_ne, ne_eq, hc, not_false_eq_true, if_true, List.cons.injEq,
      true_and]
    exact ih (fun d hd => ha d (List.mem_cons_of_mem _ hd))

lemma matchOne_exact (cmd a r : List Char) (hne : a ≠ [])
    (ha : ∀ c ∈ a, c ≠ ']') :
    matchOne cmd (cmd ++ '[' :: (a ++ ']' :: r)) = some a := by
  have hpre : cmd.isPrefixOf (cmd ++ '[' :: (a ++ ']' :: r)) = true := by
    rw [List.isPrefixOf_iff_prefix]
    exact List.prefix_append _ _
  have hd0 : (cmd ++ '[' :: (a ++ ']' :: r)).drop cmd.length = '[' :: (a ++ ']' :: r) :=
    List.drop_left _ _
  have hd1 : (cmd ++ '[' :: (a ++ ']' :: r)).drop (cmd.length + 1) = a ++ ']' :: r := by
    have hsplit : cmd ++ '[' :: (a ++ ']' :: r) = (cmd ++ ['[']) ++ (a ++ ']' :: r) := by
      simp
    rw [hsplit]
    exact List.drop_left' (by simp)
  have hd2 : (a ++ ']' :: r).drop a.length = ']' :: r := List.drop_left _ _
  simp only [matchOne]
  rw [if_pos ⟨hpre, by rw [hd0]; rfl⟩]
  simp only [hd1, takeWhile_notRB ha, hd2]
  rw [if_pos ⟨hne, by simp⟩]

lemma matchTwo_exact (cmd a b r : List Char) (hane : a ≠ []) (hbne : b ≠ [])
    (ha : ∀ c ∈ a, c ≠ ']') (hb : ∀ c ∈ b, c ≠ ']') :
    matchTwo cmd (cmd ++ '[' :: (a ++ ']' :: '[' :: (b ++ ']' :: r))) = some (a, b) := by
  have hpre : cmd.isPrefixOf (cmd ++ '[' :: (a ++ ']' :: '[' :: (b ++ ']' :: r))) = true := by
    rw [List.isPrefixOf_iff_prefix]
    exact List.prefix_append _ _
  have hd0 : (cmd ++ '[' :: (a ++ ']' :: '[' :: (b ++ ']' :: r))).drop cmd.length
      = '[' :: (a ++ ']' :: '[' :: (b ++ ']' :: r)) := List.drop_left _ _
  have hd1 : (cmd ++ '[' :: (a ++ ']' :: '[' :: (b ++ ']' :: r))).drop (cmd.length + 1)
      = a ++ ']' :: '[' :: (b ++ ']' :: r) := by
    have hsplit : cmd ++ '[' :: (a ++ ']' :: '[' :: (b ++ ']' :: r))
        = (cmd ++ ['[']) ++ (a ++ ']' :: '[' :: (b ++ ']' :: r)) := by simp
    rw [hsplit]
    exact List.drop_left' (by simp)
  have hd2 : (a ++ ']' :: '[' :: (b ++ ']' :: r)).drop a.length
      = ']' :: '[' :: (b ++ ']' :: r) := List.drop_left _ _
  have hd3 : (a ++ ']' :: '[' :: (b ++ ']' :: r)).drop (a.length + 1)
      = '[' :: (b ++ ']' :: r) := by
    have hsplit : a ++ ']' :: '[' :: (b ++ ']' :: r)
        = (a ++ [']']) ++ ('[' :: (b ++ ']' :: r)) := by simp
    rw [hsplit]
    exact List.drop_left' (by simp)
  have hd4 : (a ++ ']' :: '[' :: (b ++ ']' :: r)).drop (a.length + 2)
      = b ++ ']' :: r := by
    have hsplit : a ++ ']' :: '[' :: (b ++ ']' :: r)
        = (a ++ [']', '[']) ++ (b ++ ']' :: r) := by simp
    rw [hsplit]
    exact List.drop_left' (by simp)
  have hd5 : (b ++ ']' :: r).drop b.length = ']' :: r := List.drop_left _ _
  simp only [matchTwo]
  rw [if_pos ⟨hpre, by rw [hd0]; rfl⟩]
  simp only [hd1, takeWhile_notRB ha, hd2, hd3, hd4, takeWhile_notRB hb, hd5]
  rw [if_pos ⟨hane, by simp, by simp⟩]
  rw [if_pos ⟨hbne, by simp⟩]

lemma matchOne_none {cmd s : List Char}
    (h : ¬ cmd.isPrefixOf s = true) : matchOne cmd s = none := by
  simp only [matchOne]
  rw [if_neg]
  intro hcon
  exact h hcon.1

lemma matchTwo_none {cmd s : List Char}
    (h : ¬ cmd.isPrefixOf s = true) : matchTwo cmd s = none := by
  simp only [matchTwo]
  rw [if_neg]
  intro hcon
  exact h hcon.1

lemma isPrefixOf_head {cmd s : List Char} (h : cmd.isPrefixOf s = true)
    (hc : cmd ≠ []) : s.head? = cmd.head? := by
  rw [List.isPrefixOf_iff_prefix] at h
  rcases h with ⟨t, rfl⟩
  cases cmd with
  | nil => exact absurd rfl hc
  | cons c cs => rfl

lemma matchOne_none_head {cmd s : List Char} (hc : cmd.head? = some '\\')
    (hh : s.head? ≠ some '\\') : matchOne cmd s = none := by
  apply matchOne_none
  intro hpre
  have hne : cmd ≠ [] := by intro e; rw [e] at hc; cases hc
  rw [isPrefixOf_head hpre hne, hc] at hh
  exact hh rfl

lemma matchTwo_none_head {cmd s : List Char} (hc : cmd.head? = some '\\')
    (hh : s.head? ≠ some '\\') : matchTwo cmd s = none := by
  apply matchTwo_none
  intro hpre
  have hne : cmd ≠ [] := by intro e; rw [e] at hc; cases hc
  rw [isPrefixOf_head hpre hne, hc] at hh
  exact hh rfl

lemma finditer1F_eq_nil (cmd : List Char) :
    ∀ (fuel : Nat) (s : List Char), (∀ t, t <:+ s → matchOne cmd t = none) →
    ∀ i, finditer1F cmd fuel i s = [] := by
  intro fuel
  induction fuel with
  | zero => intro s _ i; rfl
  | succ f ih =>
    intro s hall i
    simp only [finditer1F]
    rw [hall s (List.suffix_refl s)]
    cases s with
    | nil => rfl
    | cons c rest =>
      exact ih rest (fun t ht => hall t (ht.trans (List.suffix_cons c rest))) (i + 1)

lemma finditer2F_eq_nil (cmd : List Char) :
    ∀ (fuel : Nat) (s : List Char), (∀ t, t <:+ s → matchTwo cmd t = none) →
    ∀ i, finditer2F cmd fuel i s = [] := by
  intro fuel
  induction fuel with
  | zero => intro s _ i; rfl
  | succ f ih =>
    intro s hall i
    simp only [finditer2F]
    rw [hall s (List.suffix_refl s)]
    cases s with
    | nil => rfl
    | cons c rest =>
      exact ih rest (fun t ht => hall t (ht.trans (List.suffix_cons c rest))) (i + 1)

lemma suffix_cases_bs {l t : List Char} (ht : t <:+ ('\\' :: l)) :
    t = '\\' :: l ∨ t <:+ l := by
  rcases ht with ⟨u, hu⟩
  cases u with
  | nil => exact Or.inl (by simpa using hu)
  | cons d u' =>
    rw [List.cons_append] at hu
    injection hu with h1 h2
    exact Or.inr ⟨u', h2⟩

lemma head_ne_bs_of_notMem {t l : List Char} (hl : '\\' ∉ l) (ht : t <:+ l) :
    t.head? ≠ some '\\' := by
  intro hh
  cases t with
  | nil => cases hh
  | cons c0 t' =>
    injection hh with h0
    exact hl (ht.subset (h0 ▸ List.mem_cons_self c0 t'))

lemma finditer1F_bs_head_nil {cmd l : List Char} (hc : cmd.head? = some '\\')
    (hl : '\\' ∉ l) (hpre : cmd.isPrefixOf ('\\' :: l) = false) :
    ∀ fuel i, finditer1F cmd fuel i ('\\' :: l) = [] := by
  intro fuel i
  apply finditer1F_eq_nil
  intro t ht
  rcases suffix_cases_bs ht with rfl | hsuf
  · exact matchOne_none (by rw [hpre]; intro hcon; cases hcon)
  · exact matchOne_none_head hc (head_ne_bs_of_notMem hl hsuf)

lemma finditer2F_bs_head_nil {cmd l : List Char} (hc : cmd.head? = some '\\')
    (hl : '\\' ∉ l) (hpre : cmd.isPrefixOf ('\\' :: l) = false) :
    ∀ fuel i, finditer2F cmd fuel i ('\\' :: l) = [] := by
  intro fuel i
  apply finditer2F_eq_nil
  intro t ht
  rcases suffix_cases_bs ht with rfl | hsuf
  · exact matchTwo_none (by rw [hpre]; intro hcon; cases hcon)
  · exact matchTwo_none_head hc (head_ne_bs_of_notMem hl hsuf)

lemma finditer1F_no_bs_nil {cmd s : List Char} (hc : cmd.head? = some '\\')
    (hs : '\\' ∉ s) : ∀ fuel i, finditer1F cmd fuel i s = [] := by
  intro fuel i
  apply finditer1F_eq_nil
  intro t ht
  exact matchOne_none_head hc (head_ne_bs_of_notMem hs ht)

lemma finditer1F_nil_right {cmd : List Char} (h : cmd ≠ []) :
    ∀ fuel i, finditer1F cmd fuel i [] = [] := by
  intro fuel i
  apply finditer1F_eq_nil
  intro t ht
  rw [List.suffix_nil.mp ht]
  apply matchOne_none
  intro hpre
  rw [List.isPrefixOf_iff_prefix] at hpre
  exact h (List.prefix_nil.mp hpre)

lemma finditer2F_nil_right {cmd : List Char} (h : cmd ≠ []) :
    ∀ fuel i, finditer2F cmd fuel i [] = [] := by
  intro fuel i
  apply finditer2F_eq_nil
  intro t ht
  rw [List.suffix_nil.mp ht]
  apply matchTwo_none
  intro hpre
  rw [List.isPrefixOf_iff_prefix] at hpre
  exact h (List.prefix_nil.mp hpre)

/-! ### Evaluation of the protection pass on a two-bracket line (claim C5) -/

lemma finditer2F_ffLine {a b : List Char} (hane : a ≠ []) (hbne : b ≠ [])
    (ha : ∀ c ∈ a, c ≠ ']') (hb : ∀ c ∈ b, c ≠ ']') (fuel : Nat) :
    finditer2F ffCmd (fuel + 1) 0 (ffLine a b)
      = [⟨0, ffCmd.length + 1, ffCmd.length + 1 + a.length,
          ffCmd.length + 1 + a.length + 2,
          ffCmd.length + 1 + a.length + 2 + b.length, a, b⟩] := by
  have hm : matchTwo ffCmd (ffLine a b) = some (a, b) := by
    have he : ffLine a b = ffCmd ++ '[' :: (a ++ ']' :: '[' :: (b ++ ']' :: [])) := rfl
    rw [he]
    exact matchTwo_exact ffCmd a b [] hane hbne ha hb
  simp only [finditer2F, hm]
  have hdrop : (ffLine a b).drop (ffCmd.length + a.length + b.length + 4) = [] := by
    apply List.drop_eq_nil_of_le
    simp only [ffLine, List.length_append, List.length_cons, List.length_nil]
    omega
  rw [hdrop, finditer2F_nil_right (show ffCmd ≠ [] by decide)]
  simp [Nat.zero_add]

lemma finditer1F_ffLine {a b : List Char} (hane : a ≠ [])
    (ha : ∀ c ∈ a, c ≠ ']') (hbbs : '\\' ∉ b) (fuel : Nat) :
    finditer1F ffCmd (fuel + 1) 0 (ffLine a b)
      = [⟨0, ffCmd.length + 1, ffCmd.length + 1 + a.length, a⟩] := by
  have hm : matchOne ffCmd (ffLine a b) = some a := by
    have he : ffLine a b = ffCmd ++ '[' :: (a ++ ']' :: ('[' :: (b ++ [']']))) := rfl
    rw [he]
    exact matchOne_exact ffCmd a _ hane ha
  simp only [finditer1F, hm]
  have hdrop : (ffLine a b).drop (ffCmd.length + a.length + 2) = '[' :: (b ++ [']']) := by
    have hsplit : ffLine a b = (ffCmd ++ '[' :: a ++ [']']) ++ ('[' :: (b ++ [']'])) := by
      simp [ffLine]
    rw [hsplit]
    refine List.drop_left' ?_
    simp only [List.length_append, List.length_cons, List.length_nil]
    omega
  have hnb : '\\' ∉ ('[' :: (b ++ [']'])) := by
    intro h
    rcases List.mem_cons.mp h with h | h
    · exact absurd h (by decide)
    · rcases List.mem_append.mp h with h | h
      · exact hbbs h
      · exact absurd h (by decide)
  rw [hdrop, finditer1F_no_bs_nil (show ffCmd.head? = some '\\' by decide) hnb]
  simp [Nat.zero_add]

lemma applyTwo_ffLine {a b : List Char} (hab : a ≠ b) :
    applyTwo ⟨ffLine a b, [], [], 1, 0⟩
        ⟨0, ffCmd.length + 1, ffCmd.length + 1 + a.length,
         ffCmd.length + 1 + a.length + 2,
         ffCmd.length + 1 + a.length + 2 + b.length, a, b⟩
      = ⟨ffCmd ++ '[' :: (placeholderL 0 ++ ']' :: '[' :: (placeholderL 1 ++ [']'])),
         [(placeholderL 0, natChars 1), (placeholderL 1, natChars 2)],
         [(a, 1), (b, 2)], 3, 2⟩ := by
  have hg1 : get_string_id a ([] : IdMap) 1 = (1, [(a, 1)], 2) := rfl
  have hg2 : get_string_id b [(a, 1)] 2 = (2, [(a, 1), (b, 2)], 3) := by
    simp only [get_string_id, lookupStr, if_neg hab]
    rfl
  have htake2 : (ffLine a b).take (ffCmd.length + 1 + a.length + 2)
      = ffCmd ++ '[' :: a ++ [']', '['] := by
    have hsplit : ffLine a b = (ffCmd ++ '[' :: a ++ [']', '[']) ++ (b ++ [']']) := by
      simp [ffLine]
    rw [hsplit]
    refine List.take_left' ?_
    simp only [List.length_append, List.length_cons, List.length_nil]
    omega
  have hdrop2 : (ffLine a b).drop (ffCmd.length + 1 + a.length + 2 + b.length)
      = [']'] := by
    have hsplit : ffLine a b = ((ffCmd ++ '[' :: a ++ [']', '[']) ++ b) ++ [']'] := by
      simp [ffLine]
    rw [hsplit]
    refine List.drop_left' ?_
    simp only [List.length_append, List.length_cons, List.length_nil]
    omega
  have htake1 : ((ffCmd ++ '[' :: a ++ [']', '[']) ++ (placeholderL 1 ++ [']'])).take
        (ffCmd.length + 1)
      = ffCmd ++ ['['] := by
    have hsplit : (ffCmd ++ '[' :: a ++ [']', '[']) ++ (placeholderL 1 ++ [']'])
        = (ffCmd ++ ['[']) ++ (a ++ [']', '['] ++ (placeholderL 1 ++ [']'])) := by
      simp
    rw [hsplit]
    refine List.take_left' ?_
    simp only [List.length_append, List.length_cons, List.length_nil]
  have hdrop1 : ((ffCmd ++ '[' :: a ++ [']', '[']) ++ (placeholderL 1 ++ [']'])).drop
        (ffCmd.length + 1 + a.length)
      = [']', '['] ++ (placeholderL 1 ++ [']']) := by
    have hsplit : (ffCmd ++ '[' :: a ++ [']', '[']) ++ (placeholderL 1 ++ [']'])
        = ((ffCmd ++ ['[']) ++ a) ++ ([']', '['] ++ (placeholderL 1 ++ [']'])) := by
      simp
    rw [hsplit]
    refine List.drop_left' ?_
    simp only [List.length_append, List.length_cons, List.length_nil]
  simp only [applyTwo, hg1, hg2, Nat.zero_add]
  rw [htake2, hdrop2]
  rw [show (ffCmd ++ '[' :: a ++ [']', '[']) ++ placeholderL 1 ++ [']']
      = (ffCmd ++ '[' :: a ++ [']', '[']) ++ (placeholderL 1 ++ [']']) by simp]
  rw [htake1, hdrop1]
  simp

lemma processFF_ffLine {a b : List Char} (hane : a ≠ []) (hbne : b ≠ [])
    (hab : a ≠ b) (haRB : ∀ c ∈ a, c ≠ ']') (hbRB : ∀ c ∈ b, c ≠ ']')
    (hbBS : '\\' ∉ b) :
    processFF ⟨ffLine a b, [], [], 1, 0⟩
      = ⟨ffCmd ++ '[' :: (placeholderL 0 ++ ']' :: '[' :: (placeholderL 1 ++ [']'])),
         [(placeholderL 0, natChars 1), (placeholderL 1, natChars 2)],
         [(a, 1), (b, 2)], 3, 2⟩ := by
  simp only [processFF]
  rw [finditer2F_ffLine hane hbne haRB hbRB, finditer1F_ffLine hane haRB hbBS]
  simp only [List.reverse_cons, List.reverse_nil, List.nil_append, List.foldl_cons,
    List.foldl_nil, List.map_cons, List.map_nil]
  rw [applyTwo_ffLine hab]
  simp

lemma processCmd_of_nil {cmd : List Char} {st : LineState}
    (h : finditer1F cmd (st.text.length + 1) 0 st.text = []) :
    processCmd cmd st = st := by
  rw [processCmd, h]
  rfl

lemma ffTail_notMem {a b : List Char} {x : Char}
    (hx0 : x ∉ "firstfootnote".data) (hx1 : x ≠ '[') (hx2 : x ≠ ']')
    (hxa : x ∉ a) (hxb : x ∉ b) :
    x ∉ ("firstfootnote".data ++ '[' :: (a ++ ']' :: '[' :: (b ++ [']']))) := by
  intro h
  rcases List.mem_append.mp h with h | h
  · exact hx0 h
  · rcases List.mem_cons.mp h with h | h
    · exact hx1 h
    · rcases List.mem_append.mp h with h | h
      · exact hxa h
      · rcases List.mem_cons.mp h with h | h
        · exact hx2 h
        · rcases List.mem_cons.mp h with h | h
          · exact hx1 h
          · rcases List.mem_append.mp h with h | h
            · exact hxb h
            · exact hx2 (List.mem_singleton.mp h)

lemma ffLine_notMem {a b : List Char} {x : Char}
    (hxbs : x ≠ '\\') (hx0 : x ∉ "firstfootnote".data) (hx1 : x ≠ '[')
    (hx2 : x ≠ ']') (hxa : x ∉ a) (hxb : x ∉ b) : x ∉ ffLine a b := by
  have hcons : ffLine a b
      = '\\' :: ("firstfootnote".data ++ '[' :: (a ++ ']' :: '[' :: (b ++ [']']))) := rfl
  rw [hcons]
  intro h
  rcases List.mem_cons.mp h with h | h
  · exact hxbs h
  · exact ffTail_notMem hx0 hx1 hx2 hxa hxb h

lemma protectAll_ffLine {a b : List Char} (hane : a ≠ []) (hbne : b ≠ [])
    (hab : a ≠ b) (haRB : ∀ c ∈ a, c ≠ ']') (hbRB : ∀ c ∈ b, c ≠ ']')
    (haBS : '\\' ∉ a) (hbBS : '\\' ∉ b) :
    protectAll ⟨ffLine a b, [], [], 1, 0⟩
      = ⟨ffCmd ++ '[' :: (placeholderL 0 ++ ']' :: '[' :: (placeholderL 1 ++ [']'])),
         [(placeholderL 0, natChars 1), (placeholderL 1, natChars 2)],
         [(a, 1), (b, 2)], 3, 2⟩ := by
  have hcons : ffLine a b
      = '\\' :: ("firstfootnote".data ++ '[' :: (a ++ ']' :: '[' :: (b ++ [']']))) := rfl
  have htail : '\\' ∉ ("firstfootnote".data ++ '[' :: (a ++ ']' :: '[' :: (b ++ [']']))) :=
    ffTail_notMem (by decide) (by decide) (by decide) haBS hbBS
  have hsb : processCommand ⟨ffLine a b, [], [], 1, 0⟩ "\\startbuffer".data
      = ⟨ffLine a b, [], [], 1, 0⟩ := by
    rw [processCommand, if_neg (by decide)]
    apply processCmd_of_nil
    dsimp only
    rw [hcons]
    exact finditer1F_bs_head_nil (by decide) htail (by rfl) _ _
  have hff : processCommand ⟨ffLine a b, [], [], 1, 0⟩ "\\firstfootnote".data
      = ⟨ffCmd ++ '[' :: (placeholderL 0 ++ ']' :: '[' :: (placeholderL 1 ++ [']'])),
         [(placeholderL 0, natChars 1), (placeholderL 1, natChars 2)],
         [(a, 1), (b, 2)], 3, 2⟩ := by
    rw [processCommand, if_pos (show "\\firstfootnote".data = ffCmd by rfl)]
    exact processFF_ffLine hane hbne hab haRB hbRB hbBS
  have h3 : processCommand
      (⟨ffCmd ++ '[' :: (placeholderL 0 ++ ']' :: '[' :: (placeholderL 1 ++ [']'])),
        [(placeholderL 0, natChars 1), (placeholderL 1, natChars 2)],
        [(a, 1), (b, 2)], 3, 2⟩ : LineState) "\\tofirstfootnote".data
      = ⟨ffCmd ++ '[' :: (placeholderL 0 ++ ']' :: '[' :: (placeholderL 1 ++ [']'])),
         [(placeholderL 0, natChars 1), (placeholderL 1, natChars 2)],
         [(a, 1), (b, 2)], 3, 2⟩ := by
    rw [processCommand, if_neg (by decide)]
    apply processCmd_of_nil
    dsimp only
    exact (by decide :
      finditer1F "\\tofirstfootnote".data
        ((ffCmd ++ '[' :: (placeholderL 0 ++ ']' :: '[' :: (placeholderL 1 ++ [']']))).length + 1)
        0 (ffCmd ++ '[' :: (placeholderL 0 ++ ']' :: '[' :: (placeholderL 1 ++ [']']))) = [])
  have h4 : processCommand
      (⟨ffCmd ++ '[' :: (placeholderL 0 ++ ']' :: '[' :: (placeholderL 1 ++ [']'])),
        [(placeholderL 0, natChars 1), (placeholderL 1, natChars 2)],
        [(a, 1), (b, 2)], 3, 2⟩ : LineState) "\\sameasfootnote".data
      = ⟨ffCmd ++ '[' :: (placeholderL 0 ++ ']' :: '[' :: (placeholderL 1 ++ [']'])),
         [(placeholderL 0, natChars 1), (placeholderL 1, natChars 2)],
         [(a, 1), (b, 2)], 3, 2⟩ := by
    rw [processCommand, if_neg (by decide)]
    apply processCmd_of_nil
    dsimp only
    exact (by decide :
      finditer1F "\\sameasfootnote".data
        ((ffCmd ++ '[' :: (placeholderL 0 ++ ']' :: '[' :: (placeholderL 1 ++ [']']))).length + 1)
        0 (ffCmd ++ '[' :: (placeholderL 0 ++ ']' :: '[' :: (placeholderL 1 ++ [']']))) = [])
  have h5 : processCommand
      (⟨ffCmd ++ '[' :: (placeholderL 0 ++ ']' :: '[' :: (placeholderL 1 ++ [']'])),
        [(placeholderL 0, natChars 1), (placeholderL 1, natChars 2)],
        [(a, 1), (b, 2)], 3, 2⟩ : LineState) "\\basefootnote".data
      = ⟨ffCmd ++ '[' :: (placeholderL 0 ++ ']' :: '[' :: (placeholderL 1 ++ [']'])),
         [(placeholderL 0, natChars 1), (placeholderL 1, natChars 2)],
         [(a, 1), (b, 2)], 3, 2⟩ := by
    rw [processCommand, if_neg (by decide)]
    apply processCmd_of_nil
    dsimp only
    exact (by decide :
      finditer1F "\\basefootnote".data
        ((ffCmd ++ '[' :: (placeholderL 0 ++ ']' :: '[' :: (placeholderL 1 ++ [']']))).length + 1)
        0 (ffCmd ++ '[' :: (placeholderL 0 ++ ']' :: '[' :: (placeholderL 1 ++ [']']))) = [])
  rw [protectAll]
  simp only [protected_commands, List.foldl_cons, List.foldl_nil]
  rw [hsb, hff, h3, h4, h5]

lemma splitNl_eq_singleton {t : List Char} (h : '\n' ∉ t) : splitNl t = [t] := by
  induction t with
  | nil => rfl
  | cons c cs ih =>
    have hc : c ≠ '\n' := fun hh => h (hh ▸ List.mem_cons_self c cs)
    have hcs : '\n' ∉ cs := fun hh => h (List.mem_cons_of_mem c hh)
    rw [splitNl, if_neg hc, ih hcs]

lemma commentPosAux_no_pct : ∀ (l : List Char) (pb : Bool) (i : Nat), '%' ∉ l →
    commentPosAux pb i l = none := by
  intro l
  induction l with
  | nil => intro pb i _; rfl
  | cons c cs ih =>
    intro pb i h
    have hc : c ≠ '%' := fun hh => h (hh ▸ List.mem_cons_self c cs)
    have hcs : '%' ∉ cs := fun hh => h (List.mem_cons_of_mem c hh)
    rw [commentPosAux, if_neg ?hcond]
    case hcond =>
      intro hcond
      exact hc (of_decide_eq_true ((Bool.and_eq_true _ _).mp hcond).1)
    exact ih (c == '\\') (i + 1) hcs

lemma commentPos_no_pct {l : List Char} (h : '%' ∉ l) : commentPos l = none :=
  commentPosAux_no_pct l false 0 h

lemma subChars_noCJK {rnd : Nat → Char} {k : Nat} :
    ∀ l : List Char, (∀ c ∈ l, isCJK c = false) → subChars rnd k l = (l, k) := by
  intro l
  induction l with
  | nil => intro _; rfl
  | cons c cs ih =>
    intro h
    have hc : isCJK c = false := h c (List.mem_cons_self c cs)
    rw [subChars_cons_other hc, ih (fun d hd => h d (List.mem_cons_of_mem c hd))]

/-- Claim C5: on a line holding the two-bracket form
`\firstfootnote[a][b]`, the two-bracket match wins: both bracket contents
are protected and mapped to identifiers 1 and 2 (first bracket first), and
the one-bracket match starting at the same position is suppressed, so the
whole line rewrites to `\firstfootnote[1][2]`.  Argument hypotheses keep
the arguments nonempty and free of the structural characters `]`, `\`,
`%`, newline, matching the non-nested single-level bracket grammar. -/
theorem c5_two_arg_precedence (rnd : Nat → Char) (a b : List Char)
    (hane : a ≠ []) (hbne : b ≠ []) (hab : a ≠ b)
    (ha : ∀ c ∈ a, c ≠ ']' ∧ c ≠ '\\' ∧ c ≠ '%' ∧ c ≠ '\n')
    (hb : ∀ c ∈ b, c ≠ ']' ∧ c ≠ '\\' ∧ c ≠ '%' ∧ c ≠ '\n') :
    rctCore rnd (ffLine a b)
      = ⟨"\\firstfootnote[1][2]".data, [(a, 1), (b, 2)], 3, 0⟩ := by
  have haRB : ∀ c ∈ a, c ≠ ']' := fun c hc => (ha c hc).1
  have hbRB : ∀ c ∈ b, c ≠ ']' := fun c hc => (hb c hc).1
  have haBS : '\\' ∉ a := fun h => (ha _ h).2.1 rfl
  have hbBS : '\\' ∉ b := fun h => (hb _ h).2.1 rfl
  have haPC : '%' ∉ a := fun h => (ha _ h).2.2.1 rfl
  have hbPC : '%' ∉ b := fun h => (hb _ h).2.2.1 rfl
  have haNL : '\n' ∉ a := fun h => (ha _ h).2.2.2 rfl
  have hbNL : '\n' ∉ b := fun h => (hb _ h).2.2.2 rfl
  have hnl : '\n' ∉ ffLine a b :=
    ffLine_notMem (by decide) (by decide) (by decide) (by decide) haNL hbNL
  have hpc : '%' ∉ ffLine a b :=
    ffLine_notMem (by decide) (by decide) (by decide) (by decide) haPC hbPC
  have hPA := protectAll_ffLine hane hbne hab haRB hbRB haBS hbBS
  have hRS : rewriteSegment rnd ⟨[], 1, 0⟩ (ffLine a b)
      = ("\\firstfootnote[1][2]".data, ⟨[(a, 1), (b, 2)], 3, 0⟩) := by
    have hsc : subChars rnd 0
        (ffCmd ++ '[' :: (placeholderL 0 ++ ']' :: '[' :: (placeholderL 1 ++ [']'])))
        = (ffCmd ++ '[' :: (placeholderL 0 ++ ']' :: '[' :: (placeholderL 1 ++ [']'])), 0) :=
      subChars_noCJK _ (by decide)
    have hrest : ([(placeholderL 0, natChars 1), (placeholderL 1, natChars 2)]).reverse.foldl
          (fun t pr => replaceFirst pr.1 pr.2 t)
          (ffCmd ++ '[' :: (placeholderL 0 ++ ']' :: '[' :: (placeholderL 1 ++ [']'])))
        = "\\firstfootnote[1][2]".data := by decide
    simp only [rewriteSegment]
    rw [hPA]
    dsimp only
    rw [hsc]
    dsimp only
    rw [hrest]
  have hline : processLine rnd ⟨[], 1, 0⟩ (ffLine a b)
      = ("\\firstfootnote[1][2]".data, ⟨[(a, 1), (b, 2)], 3, 0⟩) := by
    simp only [processLine, commentPos_no_pct hpc]
    rw [hRS]
    simp
  have hfold : (splitNl (ffLine a b)).foldl (rctStep rnd) ([], ⟨[], 1, 0⟩)
      = (["\\firstfootnote[1][2]".data], ⟨[(a, 1), (b, 2)], 3, 0⟩) := by
    rw [splitNl_eq_singleton hnl]
    simp only [List.foldl_cons, List.foldl_nil, rctStep]
    rw [hline]
    simp
  simp only [rctCore]
  rw [hfold]
  rfl

/-- Witness for C5 with the concrete arguments `x` and `y`. -/
theorem c5_two_arg_precedence_witness :
    ("x".data ≠ [] ∧ "y".data ≠ [] ∧ "x".data ≠ "y".data
      ∧ (∀ c ∈ "x".data, c ≠ ']' ∧ c ≠ '\\' ∧ c ≠ '%' ∧ c ≠ '\n')
      ∧ (∀ c ∈ "y".data, c ≠ ']' ∧ c ≠ '\\' ∧ c ≠ '%' ∧ c ≠ '\n'))
    ∧ rctCore constRnd (ffLine "x".data "y".data)
      = ⟨"\\firstfootnote[1][2]".data, [("x".data, 1), ("y".data, 2)], 3, 0⟩ :=
  ⟨⟨by decide, by decide, by decide, by decide, by decide⟩,
    c5_two_arg_precedence constRnd "x".data "y".data (by decide) (by decide)
      (by decide) (by decide) (by decide)⟩

end ReplaceChinese
